import Mathlib

/-!
Verification of the silence-removal audio core (`src/utils/audio.ts`).

The embedding models decoded audio sample values and time values as exact
rationals (`ℚ`), machine indices as `ℕ`/`ℤ`, and byte buffers as `List ℕ`.
JavaScript `DataView`/`TypedArray` writes into a pre-allocated zero-filled
buffer are modelled by `writeAt` (take/chunk/drop splicing); `Math.floor`
is `Int.floor`; `|0` truncation toward zero is `ratTrunc`; the defensive
`[...regions].sort((a, b) => a.start - b.start)` (a stable ascending sort
by `start`) is `List.mergeSort`, which is also stable.
-/

namespace SilenceRemover

/-- A decoded audio buffer: one list of floating-point samples per channel,
a sample rate and a frame count (`AudioBuffer` of the Web Audio API, as the
core uses it).  Well-formedness of the channel lengths is `BufferWF`. -/
structure AudioBuffer where
  data : List (List ℚ)
  sampleRate : ℕ
  length : ℕ
  deriving DecidableEq

def AudioBuffer.numberOfChannels (b : AudioBuffer) : ℕ := b.data.length

/-- `buffer.getChannelData(c)`; the core only calls it with `c` below the
channel count. -/
def AudioBuffer.getChannelData (b : AudioBuffer) (c : ℕ) : List ℚ := b.data.getD c []

/-- `buffer.duration = length / sampleRate` (seconds). -/
def AudioBuffer.duration (b : AudioBuffer) : ℚ := (b.length : ℚ) / (b.sampleRate : ℚ)

/-- Every channel holds exactly `length` samples. -/
def BufferWF (b : AudioBuffer) : Prop := ∀ ch ∈ b.data, ch.length = b.length

/-- A silence region in seconds.  The source names the second field `end`,
which is a Lean keyword, so it is called `stop` here. -/
structure Region where
  start : ℚ
  stop : ℚ
  deriving DecidableEq

/-! ## Silence detector (`analyzeSilence`, audio.ts lines 4-55) -/

/-- `const threshold = 0.015` (audio.ts line 13). -/
def threshold : ℚ := 0.015

/-- `const step = 200` (audio.ts line 19). -/
def step : ℕ := 200

/-- The indices visited by `for (let i = 0; i < rawData.length; i += step)`:
`0, step, 2*step, ...` while below `len`. -/
def visitedIndices (len : ℕ) : List ℕ :=
  List.range' 0 ((len + step - 1) / step) step

/-- The mutable loop state of `analyzeSilence`: `isSilent`, `silenceStart`
and the accumulated `silenceRegions`. -/
structure ScanState where
  isSilent : Bool
  silenceStart : ℕ
  regions : List Region
  deriving DecidableEq

/-- One iteration of the scanning loop (audio.ts lines 21-41). -/
def scanStep (sampleRate : ℕ) (minDuration : ℚ) (rawData : List ℚ)
    (s : ScanState) (i : ℕ) : ScanState :=
  let amplitude := |rawData.getD i 0|
  if amplitude < threshold then
    if s.isSilent then s
    else { isSilent := true, silenceStart := i, regions := s.regions }
  else
    if s.isSilent then
      let duration := ((i : ℚ) - (s.silenceStart : ℚ)) / (sampleRate : ℚ)
      if duration ≥ minDuration then
        { isSilent := false, silenceStart := s.silenceStart,
          regions := s.regions ++
            [{ start := (s.silenceStart : ℚ) / (sampleRate : ℚ),
               stop := (i : ℚ) / (sampleRate : ℚ) }] }
      else { isSilent := false, silenceStart := s.silenceStart, regions := s.regions }
    else s

/-- `analyzeSilence` (audio.ts lines 4-55): scan channel 0 at stride `step`,
then flush a still-open silent span against `rawData.length`. -/
def analyzeSilence (buffer : AudioBuffer) (minDuration : ℚ) : List Region :=
  let rawData := buffer.getChannelData 0
  let sampleRate := buffer.sampleRate
  let final := (visitedIndices rawData.length).foldl
    (scanStep sampleRate minDuration rawData)
    { isSilent := false, silenceStart := 0, regions := [] }
  if final.isSilent then
    let duration := ((rawData.length : ℚ) - (final.silenceStart : ℚ)) / (sampleRate : ℚ)
    if duration ≥ minDuration then
      final.regions ++
        [{ start := (final.silenceStart : ℚ) / (sampleRate : ℚ),
           stop := ((rawData.length : ℚ)) / (sampleRate : ℚ) }]
    else final.regions
  else final.regions

/-! ## The detector contract of the specification (§4.1)

The specification describes `detectSilence` as an explicit two-state machine
with states `{Sounding, Silent}`, initial state `Sounding`; this second
definition follows the specification's words so the code above can be proved
equal to it (claim C3). -/

inductive ScanMode where
  | Sounding : ScanMode
  | Silent : ℕ → ScanMode
  deriving DecidableEq

/-- One transition of the specification's state machine: `Sounding -> Silent`
records `silenceStart = currentIndex`; `Silent -> Sounding` emits the region
exactly when `duration >= minDuration`. -/
def detectStep (sampleRate : ℕ) (minDuration : ℚ) (rawData : List ℚ) :
    ScanMode × List Region → ℕ → ScanMode × List Region
  | (ScanMode.Sounding, rs), i =>
    if |rawData.getD i 0| < threshold then (ScanMode.Silent i, rs)
    else (ScanMode.Sounding, rs)
  | (ScanMode.Silent silenceStart, rs), i =>
    if |rawData.getD i 0| < threshold then (ScanMode.Silent silenceStart, rs)
    else
      let duration := ((i : ℚ) - (silenceStart : ℚ)) / (sampleRate : ℚ)
      (ScanMode.Sounding,
        if duration ≥ minDuration then
          rs ++ [{ start := (silenceStart : ℚ) / (sampleRate : ℚ),
                   stop := (i : ℚ) / (sampleRate : ℚ) }]
        else rs)

/-- The specification's `detectSilence` contract (§4.1): run the state
machine over the visited-sample stream, then apply the end-of-stream flush
with `length` (not the last visited index) as the closing boundary. -/
def detectSilence (buffer : AudioBuffer) (minDuration : ℚ) : List Region :=
  let rawData := buffer.getChannelData 0
  let sampleRate := buffer.sampleRate
  match (visitedIndices rawData.length).foldl
      (detectStep sampleRate minDuration rawData) (ScanMode.Sounding, []) with
  | (ScanMode.Sounding, rs) => rs
  | (ScanMode.Silent silenceStart, rs) =>
    if ((rawData.length : ℚ) - (silenceStart : ℚ)) / (sampleRate : ℚ) ≥ minDuration then
      rs ++ [{ start := (silenceStart : ℚ) / (sampleRate : ℚ),
               stop := ((rawData.length : ℚ)) / (sampleRate : ℚ) }]
    else rs

/-! ## Byte-buffer writes -/

/-- Write `chunk` into `dest` starting at byte/sample position `pos`,
leaving everything else unchanged.  This is JavaScript
`DataView.set…`/`TypedArray.set` for in-range writes (the only writes the
core performs under its caller contract; out-of-range writes would throw). -/
def writeAt {α : Type} (dest : List α) (pos : ℕ) (chunk : List α) : List α :=
  dest.take pos ++ chunk ++ dest.drop (pos + chunk.length)

/-- Sequential contiguous writes: each chunk is written at the current
position and the position advances by the chunk's length — the behaviour of
`setUint16`/`setUint32`/`setInt16` with the running `pos`/`offset` counters
in `bufferToWav`. -/
def writeSeq (dest : List ℕ) (pos : ℕ) (chunks : List (List ℕ)) : List ℕ :=
  (chunks.foldl (fun acc chunk => (writeAt acc.1 acc.2 chunk, acc.2 + chunk.length))
    (dest, pos)).1

/-! ## PCM encoder (`bufferToWav`, audio.ts lines 76-129) -/

/-- Truncation toward zero of a rational: JavaScript `|0` applied to an
in-32-bit-range value. -/
def ratTrunc (q : ℚ) : ℤ := if q < 0 then -⌊-q⌋ else ⌊q⌋

/-- Sample conversion of audio.ts lines 110-111: clamp to `[-1, 1]`, scale
by 32768 when `0.5 + sample < 0` and by 32767 otherwise, truncate toward
zero. -/
def toInt16 (q : ℚ) : ℤ :=
  let sample := max (-1) (min 1 q)
  if 0.5 + sample < 0 then ratTrunc (sample * 32768) else ratTrunc (sample * 32767)

/-- Little-endian bytes of `setUint32` (value wrapped to 32 bits). -/
def u32Bytes (v : ℕ) : List ℕ :=
  [v % 256, v / 256 % 256, v / 65536 % 256, v / 16777216 % 256]

/-- Little-endian bytes of `setUint16` (value wrapped to 16 bits). -/
def u16Bytes (v : ℕ) : List ℕ := [v % 256, v / 256 % 256]

/-- Little-endian bytes of `setInt16`: the value is wrapped to its 16-bit
two's-complement representation. -/
def int16LEBytes (v : ℤ) : List ℕ :=
  [(Int.emod v 65536).toNat % 256, (Int.emod v 65536).toNat / 256]

/-- `bufferToWav` (audio.ts lines 76-129).  All writes are sequential and
contiguous: the thirteen header writes advance `pos` from 0 to 44, and the
sample writes go to `44 + offset` with `offset` advancing by 2 per sample.
Note that after the header `pos` holds 44 and the sample loop is
`while (pos < len)`, so the frames encoded are `pos = 44, …, len - 1` and
each frame `pos` reads `channels[i][pos]`; for `len ≤ 44` no sample is
written.  The data-chunk size field is written as `length - pos - 4` with
`pos = 40` at that write, i.e. `length - 44`. -/
def bufferToWav (abuffer : AudioBuffer) (len : ℕ) : List ℕ :=
  let numOfChan := abuffer.numberOfChannels
  let length := len * numOfChan * 2 + 44
  let channels := (List.range numOfChan).map (fun i => abuffer.getChannelData i)
  let headerChunks : List (List ℕ) :=
    [u32Bytes 0x46464952, u32Bytes (length - 8), u32Bytes 0x45564157,
     u32Bytes 0x20746d66, u32Bytes 16, u16Bytes 1, u16Bytes numOfChan,
     u32Bytes abuffer.sampleRate, u32Bytes (abuffer.sampleRate * 2 * numOfChan),
     u16Bytes (numOfChan * 2), u16Bytes 16,
     u32Bytes 0x61746164, u32Bytes (length - 44)]
  let sampleChunks : List (List ℕ) :=
    (List.range' 44 (len - 44)).flatMap (fun pos =>
      (List.range numOfChan).map (fun i =>
        int16LEBytes (toInt16 ((channels.getD i []).getD pos 0))))
  writeSeq (List.replicate length 0) 0 (headerChunks ++ sampleChunks)

/-! ## Gap remover (`createProcessedBuffer` / `processAudio`,
audio.ts lines 132-226) -/

/-- JavaScript `TypedArray.subarray` index resolution: a negative index is
relative to the end and the result is clamped to `[0, length]`. -/
def relIndex (len : ℕ) (i : ℤ) : ℕ :=
  if i < 0 then (max ((len : ℤ) + i) 0).toNat else min i.toNat len

/-- `oldData.subarray(b, e)`. -/
def subarrayJS {α : Type} (xs : List α) (b e : ℤ) : List α :=
  (xs.take (relIndex xs.length e)).drop (relIndex xs.length b)

/-- One iteration of the cursor walk over the sorted silence regions
(audio.ts lines 145-153 / 191-199): convert the region's bounds to sample
indices with `Math.floor(time * sampleRate)`, emit a keep interval
`[cursor, regionStartSample)` when `cursor < regionStartSample`, and set
`cursor = regionEndSample`. -/
def keepStep (sampleRate : ℕ) (acc : ℤ × List (ℤ × ℤ)) (region : Region) :
    ℤ × List (ℤ × ℤ) :=
  let regionStartSample := ⌊region.start * (sampleRate : ℚ)⌋
  let regionEndSample := ⌊region.stop * (sampleRate : ℚ)⌋
  (regionEndSample,
    if acc.1 < regionStartSample then acc.2 ++ [(acc.1, regionStartSample)] else acc.2)

/-- The keep intervals computed by both reconstruction functions: sort the
regions by `start` ascending (on a copy), walk the cursor from 0, and emit
the trailing interval `[cursor, totalSamples)` when `cursor < totalSamples`. -/
def keepIntervals (silenceRegions : List Region) (sampleRate : ℕ)
    (totalSamples : ℕ) : List (ℤ × ℤ) :=
  let sortedSilence := silenceRegions.mergeSort (fun a b => decide (a.start ≤ b.start))
  let acc := sortedSilence.foldl (keepStep sampleRate) (0, [])
  if acc.1 < (totalSamples : ℤ) then acc.2 ++ [(acc.1, (totalSamples : ℤ))] else acc.2

/-- One iteration of the per-channel copy loop (audio.ts lines 167-172 /
217-222): slice the keep interval out of the old data, write it at the
current pointer, advance the pointer by the interval's span. -/
def copyStep (oldData : List ℚ) (acc : List ℚ × ℕ) (reg : ℤ × ℤ) : List ℚ × ℕ :=
  let len := reg.2 - reg.1
  let chunk := subarrayJS oldData reg.1 reg.2
  (writeAt acc.1 acc.2 chunk, acc.2 + len.toNat)

/-- Build one output channel: start from the freshly allocated zero-filled
channel of the new buffer and run the copy loop. -/
def copyChannel (oldData : List ℚ) (keepRegions : List (ℤ × ℤ))
    (newLength : ℕ) : List ℚ :=
  ((keepRegions.foldl (copyStep oldData) (List.replicate newLength 0, 0))).1

/-- `createProcessedBuffer` (audio.ts lines 132-175).  The
`context.createBuffer(channels, newLength, sampleRate)` allocation is
modelled as a zero-filled buffer of the computed length; the copy loops then
fill each channel. -/
def createProcessedBuffer (originalBuffer : AudioBuffer)
    (silenceRegions : List Region) : AudioBuffer :=
  let sampleRate := originalBuffer.sampleRate
  let channels := originalBuffer.numberOfChannels
  let totalSamples := originalBuffer.length
  let keepRegions := keepIntervals silenceRegions sampleRate totalSamples
  let newLength := (keepRegions.foldl (fun acc reg => acc + (reg.2 - reg.1)) (0 : ℤ)).toNat
  { data := (List.range channels).map (fun c =>
      copyChannel (originalBuffer.getChannelData c) keepRegions newLength),
    sampleRate := sampleRate,
    length := newLength }

/-- The buffer built inside `processAudio` (audio.ts lines 183-223): the
same reconstruction, allocated with `new AudioBuffer({...})` instead of
`context.createBuffer` — the bodies are line-for-line duplicates in the
source, and their translations coincide. -/
def processAudioBuffer (originalBuffer : AudioBuffer)
    (silenceRegions : List Region) : AudioBuffer :=
  let sampleRate := originalBuffer.sampleRate
  let channels := originalBuffer.numberOfChannels
  let totalSamples := originalBuffer.length
  let keepRegions := keepIntervals silenceRegions sampleRate totalSamples
  let newLength := (keepRegions.foldl (fun acc reg => acc + (reg.2 - reg.1)) (0 : ℤ)).toNat
  { data := (List.range channels).map (fun c =>
      copyChannel (originalBuffer.getChannelData c) keepRegions newLength),
    sampleRate := sampleRate,
    length := newLength }

/-- `processAudio` (audio.ts lines 178-226): build the reconstructed buffer
and encode it with `bufferToWav(newBuffer, newLength)`; `newLength` is the
constructed buffer's length. -/
def processAudio (originalBuffer : AudioBuffer)
    (silenceRegions : List Region) : List ℕ :=
  bufferToWav (processAudioBuffer originalBuffer silenceRegions)
    (processAudioBuffer originalBuffer silenceRegions).length

/-- The specification's contract name (`removeSilence`, §4.2) for the gap
remover implemented by `createProcessedBuffer`/`processAudio`. -/
def removeSilence (buffer : AudioBuffer) (regions : List Region) : AudioBuffer :=
  createProcessedBuffer buffer regions

/-! ## Invariant vocabulary for the detector proofs -/

/-- `RegionChain minDuration lo hi rs`: the regions of `rs` follow each
other without overlap, the first starting no earlier than `lo`, every bound
at most `hi`, every region non-degenerate and of duration at least
`minDuration`. -/
def RegionChain (minDuration : ℚ) : ℚ → ℚ → List Region → Prop
  | _, _, [] => True
  | lo, hi, r :: rs => lo ≤ r.start ∧ r.start < r.stop ∧
      minDuration ≤ r.stop - r.start ∧ r.stop ≤ hi ∧
      RegionChain minDuration r.stop hi rs

/-- A region whose two bounds are stride-aligned visited indices, the start
strictly before the stop. -/
def AlignedPair (sampleRate : ℕ) (r : Region) : Prop :=
  ∃ k m : ℕ, k < m ∧ r.start = ((step * k : ℕ) : ℚ) / (sampleRate : ℚ) ∧
    r.stop = ((step * m : ℕ) : ℚ) / (sampleRate : ℚ)

/-- The loop invariant of the scanning loop, at scan position `p` (all
processed indices are `< p`, all future indices `≥ p`). -/
def ScanInv (sampleRate : ℕ) (minDuration : ℚ) (len : ℕ)
    (s : ScanState) (p : ℕ) : Prop :=
  (∀ r ∈ s.regions, AlignedPair sampleRate r) ∧
  (s.isSilent = true → s.silenceStart < p ∧ s.silenceStart < len ∧
    (∃ k, s.silenceStart = step * k) ∧
    RegionChain minDuration 0 ((s.silenceStart : ℚ) / (sampleRate : ℚ)) s.regions) ∧
  (s.isSilent = false →
    RegionChain minDuration 0 (((min p len : ℕ) : ℚ) / (sampleRate : ℚ)) s.regions)

/-- The simulation relation between the loop state of `analyzeSilence` and
the specification's machine state. -/
def modeAgrees (s : ScanState) (t : ScanMode × List Region) : Prop :=
  s.regions = t.2 ∧
    ((s.isSilent = true ∧ t.1 = ScanMode.Silent s.silenceStart) ∨
     (s.isSilent = false ∧ t.1 = ScanMode.Sounding))

/-! ## Concrete inputs used by the witnesses and the C2 refutation -/

/-- A mono buffer with one all-below-threshold sample, sample rate 1. -/
def bMono : AudioBuffer := { data := [[0]], sampleRate := 1, length := 1 }

/-- A mono buffer of four samples at sample rate 2 (duration 2 s). -/
def b1 : AudioBuffer := { data := [[1, 2, 3, 4]], sampleRate := 2, length := 4 }

/-- One silence region covering the first half second of `b1`. -/
def regions1 : List Region := [{ start := 0, stop := 1/2 }]

/-- A stereo two-frame buffer for the empty-region-list witness. -/
def b7 : AudioBuffer := { data := [[1, 2], [3, 4]], sampleRate := 4, length := 2 }

/-- A mono two-frame buffer for the full-cover witness. -/
def b6 : AudioBuffer := { data := [[1, 1]], sampleRate := 2, length := 2 }

/-- A mono 45-frame buffer whose first sample is full-scale 1 and whose
other samples are 0 — the failing input for claim C2. -/
def buffer45 : AudioBuffer :=
  { data := [1 :: List.replicate 44 0], sampleRate := 8000, length := 45 }

/-! ## Generic list helpers -/

theorem map_getD_range {α : Type} (l : List α) (d : α) :
    (List.range l.length).map (fun i => l.getD i d) = l := by
  induction l with
  | nil => simp
  | cons hd tl ih =>
    rw [List.length_cons, List.range_succ_eq_map, List.map_cons, List.map_map]
    have h : ((fun i => (hd :: tl).getD i d) ∘ Nat.succ) = fun i => tl.getD i d := by
      funext i
      simp [List.getD_cons_succ]
    rw [List.getD_cons_zero, h, ih]

/-! ## Claim C5: the two reconstruction implementations coincide -/

/-- Claim C5: for every buffer and region list, the buffer built by
`createProcessedBuffer` and the buffer built inside `processAudio` are
identical (hence equal length, channel count, sample rate and per-channel
samples), and `processAudio` is `bufferToWav` applied to that buffer at its
length — one algorithm behind two allocation mechanisms. -/
theorem claim5_reconstruction_equivalence (b : AudioBuffer) (regions : List Region) :
    createProcessedBuffer b regions = processAudioBuffer b regions ∧
    processAudio b regions =
      bufferToWav (createProcessedBuffer b regions)
        (createProcessedBuffer b regions).length :=
  ⟨rfl, rfl⟩

/-! ## Claim C6: a full-cover silence region empties the buffer -/

theorem keepIntervals_full_cover (b : AudioBuffer) (hsr : 0 < b.sampleRate) :
    keepIntervals [{ start := 0, stop := b.duration }] b.sampleRate b.length = [] := by
  have hne : ((b.sampleRate : ℚ)) ≠ 0 := by
    exact_mod_cast Nat.pos_iff_ne_zero.mp hsr
  have hstart : ⌊(0 : ℚ) * (b.sampleRate : ℚ)⌋ = (0 : ℤ) := by
    rw [zero_mul, Int.floor_zero]
  have hstop : ⌊b.duration * (b.sampleRate : ℚ)⌋ = (b.length : ℤ) := by
    rw [AudioBuffer.duration, div_mul_cancel₀ _ hne, Int.floor_natCast]
  unfold keepIntervals
  rw [List.mergeSort_singleton]
  simp only [List.foldl_cons, List.foldl_nil, keepStep, hstart, hstop]
  simp

/-- Claim C6: `removeSilence(buffer, [{0, buffer.duration}])` — one silence
region covering the whole buffer — yields a buffer of length 0 with the same
channel count and sample rate; the construction is total, so no error can
arise. -/
theorem claim6_full_cover (b : AudioBuffer) (hsr : 0 < b.sampleRate) :
    (removeSilence b [{ start := 0, stop := b.duration }]).length = 0 ∧
    (removeSilence b [{ start := 0, stop := b.duration }]).numberOfChannels =
      b.numberOfChannels ∧
    (removeSilence b [{ start := 0, stop := b.duration }]).sampleRate = b.sampleRate := by
  have hks := keepIntervals_full_cover b hsr
  simp [removeSilence, createProcessedBuffer, hks, AudioBuffer.numberOfChannels]

/-- Witness for C6 at the concrete buffer `b6`. -/
theorem claim6_witness :
    (0 < b6.sampleRate) ∧
    ((removeSilence b6 [{ start := 0, stop := b6.duration }]).length = 0 ∧
     (removeSilence b6 [{ start := 0, stop := b6.duration }]).numberOfChannels =
       b6.numberOfChannels ∧
     (removeSilence b6 [{ start := 0, stop := b6.duration }]).sampleRate = b6.sampleRate) :=
  ⟨by decide, claim6_full_cover b6 (by decide)⟩

/-! ## Claim C7: the empty region list reproduces the input buffer -/

/-- Claim C7: `removeSilence(buffer, [])` returns a buffer equal to the
input — same length, same channel count, same sample rate, identical
per-channel sample values. -/
theorem claim7_empty_regions_identity (b : AudioBuffer) (hwf : BufferWF b) :
    removeSilence b [] = b := by
  obtain ⟨data, sampleRate, length⟩ := b
  have hwf1 : ∀ ch ∈ data, ch.length = length := hwf
  have hks : keepIntervals [] sampleRate length =
      if (0 : ℤ) < (length : ℤ) then [((0 : ℤ), (length : ℤ))] else [] := by
    unfold keepIntervals
    simp
  by_cases h0 : length = 0
  · subst h0
    have hks0 : keepIntervals [] sampleRate 0 = [] := by
      rw [hks]
      simp
    have hrep : data = List.replicate data.length ([] : List ℚ) :=
      List.eq_replicate_of_mem (fun ch hch => List.length_eq_zero.mp (hwf1 ch hch))
    simp only [removeSilence, createProcessedBuffer, hks0]
    rw [AudioBuffer.mk.injEq]
    refine ⟨?_, rfl, rfl⟩
    have h1 : ∀ c ∈ List.range
        (AudioBuffer.mk data sampleRate 0).numberOfChannels,
        copyChannel ((AudioBuffer.mk data sampleRate 0).getChannelData c) []
          ((List.foldl (fun acc reg => acc + (reg.2 - reg.1)) (0 : ℤ)
            ([] : List (ℤ × ℤ))).toNat) =
          ([] : List ℚ) := fun c _ => rfl
    rw [List.map_congr_left h1, List.map_const']
    rw [List.length_range]
    exact hrep.symm
  · have hpos : (0 : ℤ) < (length : ℤ) := by
      exact_mod_cast Nat.pos_of_ne_zero h0
    have hks1 : keepIntervals [] sampleRate length = [((0 : ℤ), (length : ℤ))] := by
      rw [hks, if_pos hpos]
    have hNL : (List.foldl (fun acc reg => acc + (reg.2 - reg.1)) (0 : ℤ)
        [((0 : ℤ), (length : ℤ))]).toNat = length := by
      simp
    simp only [removeSilence, createProcessedBuffer, hks1, hNL]
    rw [AudioBuffer.mk.injEq]
    refine ⟨?_, rfl, rfl⟩
    have hcopy : ∀ c ∈ List.range
        (AudioBuffer.mk data sampleRate length).numberOfChannels,
        copyChannel ((AudioBuffer.mk data sampleRate length).getChannelData c)
          [((0 : ℤ), (length : ℤ))] length =
          (AudioBuffer.mk data sampleRate length).getChannelData c := by
      intro c hc
      rw [List.mem_range] at hc
      have hc2 : c < data.length := hc
      have hmem : (AudioBuffer.mk data sampleRate length).getChannelData c ∈ data := by
        show data.getD c [] ∈ data
        rw [List.getD_eq_getElem data [] hc2]
        exact List.getElem_mem hc2
      have hchlen : ((AudioBuffer.mk data sampleRate length).getChannelData c).length =
          length := hwf1 _ hmem
      unfold copyChannel
      simp only [List.foldl_cons, List.foldl_nil, copyStep]
      have hsub : subarrayJS ((AudioBuffer.mk data sampleRate length).getChannelData c)
          0 ((length : ℤ)) = (AudioBuffer.mk data sampleRate length).getChannelData c := by
        unfold subarrayJS relIndex
        rw [if_neg (by omega : ¬((length : ℤ) < 0)), if_neg (by omega : ¬((0 : ℤ) < 0))]
        simp [hchlen]
      rw [hsub]
      unfold writeAt
      simp [hchlen]
    rw [List.map_congr_left hcopy]
    exact map_getD_range data []

/-! ## Claim C1: the gap remover concatenates the keep intervals -/

theorem foldl_add_span (l : List (ℤ × ℤ)) (a : ℤ) :
    l.foldl (fun acc reg => acc + (reg.2 - reg.1)) a =
      a + (l.map (fun k => k.2 - k.1)).sum := by
  induction l generalizing a with
  | nil => simp
  | cons h t ih => simp [ih, add_assoc]

theorem sum_spans_nonneg : ∀ (l : List (ℤ × ℤ)), (∀ k ∈ l, k.1 ≤ k.2) →
    0 ≤ (l.map (fun k => k.2 - k.1)).sum := by
  intro l
  induction l with
  | nil =>
    intro _
    simp
  | cons k t ih =>
    intro h
    have hk := h k (List.mem_cons_self k t)
    have ht := ih (fun x hx => h x (List.mem_cons_of_mem k hx))
    simp only [List.map_cons, List.sum_cons]
    omega

theorem sum_toNat_of_spans : ∀ (l : List (ℤ × ℤ)), (∀ k ∈ l, k.1 ≤ k.2) →
    ((l.map (fun k : ℤ × ℤ => k.2 - k.1)).sum).toNat =
      (l.map (fun k : ℤ × ℤ => (k.2 - k.1).toNat)).sum := by
  intro l
  induction l with
  | nil =>
    intro _
    simp
  | cons k t ih =>
    intro h
    have hk := h k (List.mem_cons_self k t)
    have ht := ih (fun x hx => h x (List.mem_cons_of_mem k hx))
    have hs := sum_spans_nonneg t (fun x hx => h x (List.mem_cons_of_mem k hx))
    simp only [List.map_cons, List.sum_cons]
    omega

theorem keepFold_inv (sampleRate totalSamples : ℕ) :
    ∀ (rs : List Region) (cursor : ℤ) (acc : List (ℤ × ℤ)),
    (∀ r ∈ rs, 0 ≤ ⌊r.start * (sampleRate : ℚ)⌋ ∧
        ⌊r.start * (sampleRate : ℚ)⌋ ≤ (totalSamples : ℤ) ∧
        0 ≤ ⌊r.stop * (sampleRate : ℚ)⌋ ∧
        ⌊r.stop * (sampleRate : ℚ)⌋ ≤ (totalSamples : ℤ)) →
    0 ≤ cursor → cursor ≤ (totalSamples : ℤ) →
    (∀ k ∈ acc, 0 ≤ k.1 ∧ k.1 < k.2 ∧ k.2 ≤ (totalSamples : ℤ)) →
    0 ≤ (rs.foldl (keepStep sampleRate) (cursor, acc)).1 ∧
    (rs.foldl (keepStep sampleRate) (cursor, acc)).1 ≤ (totalSamples : ℤ) ∧
    ∀ k ∈ (rs.foldl (keepStep sampleRate) (cursor, acc)).2,
      0 ≤ k.1 ∧ k.1 < k.2 ∧ k.2 ≤ (totalSamples : ℤ) := by
  intro rs
  induction rs with
  | nil =>
    intro cursor acc _ hc0 hc1 hacc
    exact ⟨hc0, hc1, hacc⟩
  | cons r rs ih =>
    intro cursor acc hr hc0 hc1 hacc
    have hrh := hr r (List.mem_cons_self r rs)
    have hrt : ∀ x ∈ rs, 0 ≤ ⌊x.start * (sampleRate : ℚ)⌋ ∧
        ⌊x.start * (sampleRate : ℚ)⌋ ≤ (totalSamples : ℤ) ∧
        0 ≤ ⌊x.stop * (sampleRate : ℚ)⌋ ∧
        ⌊x.stop * (sampleRate : ℚ)⌋ ≤ (totalSamples : ℤ) :=
      fun x hx => hr x (List.mem_cons_of_mem r hx)
    rw [List.foldl_cons]
    by_cases hcur : cursor < ⌊r.start * (sampleRate : ℚ)⌋
    · have hstep : keepStep sampleRate (cursor, acc) r =
          (⌊r.stop * (sampleRate : ℚ)⌋, acc ++ [(cursor, ⌊r.start * (sampleRate : ℚ)⌋)]) := by
        simp only [keepStep]
        rw [if_pos hcur]
      rw [hstep]
      refine ih _ _ hrt hrh.2.2.1 hrh.2.2.2 ?_
      intro k hk
      rcases List.mem_append.mp hk with hk1 | hk2
      · exact hacc k hk1
      · rw [List.mem_singleton] at hk2
        subst hk2
        exact ⟨hc0, hcur, hrh.2.1⟩
    · have hstep : keepStep sampleRate (cursor, acc) r =
          (⌊r.stop * (sampleRate : ℚ)⌋, acc) := by
        simp only [keepStep]
        rw [if_neg hcur]
      rw [hstep]
      exact ih _ _ hrt hrh.2.2.1 hrh.2.2.2 hacc

theorem keepIntervals_bounds (regions : List Region) (sampleRate totalSamples : ℕ)
    (hsr : 0 < sampleRate)
    (hreg : ∀ r ∈ regions, 0 ≤ r.start ∧ r.start ≤ r.stop ∧
      r.stop ≤ (totalSamples : ℚ) / (sampleRate : ℚ)) :
    ∀ k ∈ keepIntervals regions sampleRate totalSamples,
      0 ≤ k.1 ∧ k.1 < k.2 ∧ k.2 ≤ (totalSamples : ℤ) := by
  have hsrq : (0 : ℚ) ≤ (sampleRate : ℚ) := Nat.cast_nonneg sampleRate
  have hsrne : ((sampleRate : ℚ)) ≠ 0 := by
    exact_mod_cast Nat.pos_iff_ne_zero.mp hsr
  have hfl : ∀ r ∈ regions.mergeSort (fun a b => decide (a.start ≤ b.start)),
      0 ≤ ⌊r.start * (sampleRate : ℚ)⌋ ∧
      ⌊r.start * (sampleRate : ℚ)⌋ ≤ (totalSamples : ℤ) ∧
      0 ≤ ⌊r.stop * (sampleRate : ℚ)⌋ ∧
      ⌊r.stop * (sampleRate : ℚ)⌋ ≤ (totalSamples : ℤ) := by
    intro r hr
    rw [List.mem_mergeSort] at hr
    obtain ⟨h1, h2, h3⟩ := hreg r hr
    have hstop : r.stop * (sampleRate : ℚ) ≤ (totalSamples : ℚ) := by
      calc r.stop * (sampleRate : ℚ)
          ≤ ((totalSamples : ℚ) / (sampleRate : ℚ)) * (sampleRate : ℚ) :=
            mul_le_mul_of_nonneg_right h3 hsrq
        _ = (totalSamples : ℚ) := div_mul_cancel₀ _ hsrne
    have hstart : r.start * (sampleRate : ℚ) ≤ (totalSamples : ℚ) :=
      le_trans (mul_le_mul_of_nonneg_right h2 hsrq) hstop
    refine ⟨Int.floor_nonneg.mpr (mul_nonneg h1 hsrq), ?_,
      Int.floor_nonneg.mpr (mul_nonneg (h1.trans h2) hsrq), ?_⟩
    · have := Int.floor_le_floor hstart
      rwa [Int.floor_natCast] at this
    · have := Int.floor_le_floor hstop
      rwa [Int.floor_natCast] at this
  unfold keepIntervals
  have hfold := keepFold_inv sampleRate totalSamples
    (regions.mergeSort (fun a b => decide (a.start ≤ b.start))) 0 [] hfl
    le_rfl (by exact_mod_cast Nat.zero_le totalSamples) (by intro k hk; cases hk)
  by_cases hlast : ((regions.mergeSort (fun a b => decide (a.start ≤ b.start))).foldl
      (keepStep sampleRate) (0, [])).1 < (totalSamples : ℤ)
  · rw [if_pos hlast]
    intro k hk
    rcases List.mem_append.mp hk with hk1 | hk2
    · exact hfold.2.2 k hk1
    · rw [List.mem_singleton] at hk2
      subst hk2
      exact ⟨hfold.1, hlast, le_rfl⟩
  · rw [if_neg hlast]
    exact hfold.2.2

theorem subarrayJS_in_range {α : Type} (xs : List α) (a b : ℤ)
    (h0 : 0 ≤ a) (hab : a ≤ b) (hb : b ≤ (xs.length : ℤ)) :
    subarrayJS xs a b = (xs.take b.toNat).drop a.toNat ∧
    (subarrayJS xs a b).length = (b - a).toNat := by
  have ha' : ¬(a < 0) := by omega
  have hb' : ¬(b < 0) := by omega
  have heq : subarrayJS xs a b = (xs.take b.toNat).drop a.toNat := by
    unfold subarrayJS relIndex
    rw [if_neg hb', if_neg ha']
    have h1 : min b.toNat xs.length = b.toNat := by omega
    have h2 : min a.toNat xs.length = a.toNat := by omega
    rw [h1, h2]
  refine ⟨heq, ?_⟩
  rw [heq, List.length_drop, List.length_take]
  omega

theorem copyFold_concat (old : List ℚ) :
    ∀ (keeps : List (ℤ × ℤ)) (dest : List ℚ) (ptr : ℕ),
    (∀ k ∈ keeps, 0 ≤ k.1 ∧ k.1 < k.2 ∧ k.2 ≤ (old.length : ℤ)) →
    ptr + (keeps.map (fun k => (k.2 - k.1).toNat)).sum ≤ dest.length →
    (keeps.foldl (copyStep old) (dest, ptr)).1 =
      dest.take ptr ++
        (keeps.map (fun k => (old.take k.2.toNat).drop k.1.toNat)).flatten ++
        dest.drop (ptr + (keeps.map (fun k => (k.2 - k.1).toNat)).sum) := by
  intro keeps
  induction keeps with
  | nil =>
    intro dest ptr _ _
    simp [List.take_append_drop]
  | cons k ks ih =>
    intro dest ptr hbound hlen
    have hk := hbound k (List.mem_cons_self k ks)
    have hks : ∀ x ∈ ks, 0 ≤ x.1 ∧ x.1 < x.2 ∧ x.2 ≤ (old.length : ℤ) :=
      fun x hx => hbound x (List.mem_cons_of_mem k hx)
    have hsub := subarrayJS_in_range old k.1 k.2 hk.1 (le_of_lt hk.2.1) hk.2.2
    have hclen : (subarrayJS old k.1 k.2).length = (k.2 - k.1).toNat := hsub.2
    simp only [List.map_cons, List.sum_cons] at hlen
    have hptr : ptr + (k.2 - k.1).toNat +
        (ks.map (fun x => (x.2 - x.1).toNat)).sum ≤ dest.length := by omega
    have hptr2 : ptr + (k.2 - k.1).toNat ≤ dest.length := by omega
    have hptr3 : ptr ≤ dest.length := by omega
    rw [List.foldl_cons]
    have hstep : copyStep old (dest, ptr) k =
        (writeAt dest ptr (subarrayJS old k.1 k.2), ptr + (k.2 - k.1).toNat) := rfl
    rw [hstep]
    have hdest1len : (writeAt dest ptr (subarrayJS old k.1 k.2)).length = dest.length := by
      unfold writeAt
      rw [List.length_append, List.length_append, List.length_take,
        List.length_drop, hclen]
      omega
    have hres := ih (writeAt dest ptr (subarrayJS old k.1 k.2))
      (ptr + (k.2 - k.1).toNat) hks (by rw [hdest1len]; exact hptr)
    rw [hres]
    have hA : writeAt dest ptr (subarrayJS old k.1 k.2) =
        (dest.take ptr ++ subarrayJS old k.1 k.2) ++
          dest.drop (ptr + (k.2 - k.1).toNat) := by
      unfold writeAt
      rw [hclen, List.append_assoc]
    have hABlen : (dest.take ptr ++ subarrayJS old k.1 k.2).length =
        ptr + (k.2 - k.1).toNat := by
      rw [List.length_append, List.length_take, hclen]
      omega
    have htake : (writeAt dest ptr (subarrayJS old k.1 k.2)).take
        (ptr + (k.2 - k.1).toNat) = dest.take ptr ++ subarrayJS old k.1 k.2 := by
      rw [hA, ← hABlen, List.take_left]
    have hdrop : ∀ n, (writeAt dest ptr (subarrayJS old k.1 k.2)).drop
        (ptr + (k.2 - k.1).toNat + n) = dest.drop (ptr + (k.2 - k.1).toNat + n) := by
      intro n
      rw [hA]
      have harg : ptr + (k.2 - k.1).toNat + n =
          (dest.take ptr ++ subarrayJS old k.1 k.2).length + n := by
        rw [hABlen]
      rw [harg, List.drop_append, List.drop_drop, hABlen]
    rw [htake, hdrop, hsub.1]
    simp [List.map_cons, List.flatten_cons, List.sum_cons, List.append_assoc,
      Nat.add_assoc]

/-- Under well-formedness, every in-range channel has the buffer's length. -/
theorem getChannelData_length (b : AudioBuffer) (hwf : BufferWF b) (c : ℕ)
    (hc : c < b.numberOfChannels) : (b.getChannelData c).length = b.length := by
  apply hwf
  have hc2 : c < b.data.length := hc
  show b.data.getD c [] ∈ b.data
  rw [List.getD_eq_getElem b.data [] hc2]
  exact List.getElem_mem hc2

theorem getChannelData_map_range (dataf : ℕ → List ℚ) (sr len : ℕ) (ch : ℕ) (c : ℕ)
    (hc : c < ch) :
    (AudioBuffer.mk ((List.range ch).map dataf) sr len).getChannelData c = dataf c := by
  show ((List.range ch).map dataf).getD c [] = dataf c
  simp [List.getD, List.getElem?_map, hc]

/-- Claim C1: the gap remover produces a buffer whose every channel is the
in-order concatenation of the input channel's samples over the keep
intervals of `keepIntervals` (sort by `start`, floor-convert the bounds,
walk the cursor from 0, emit the trailing interval); the output length is
the sum of the keep-interval spans, and channel count and sample rate are
preserved, every channel being sliced at the same boundaries. -/
theorem claim1_gap_remover (b : AudioBuffer) (regions : List Region)
    (hwf : BufferWF b) (hsr : 0 < b.sampleRate)
    (hreg : ∀ r ∈ regions, 0 ≤ r.start ∧ r.start ≤ r.stop ∧ r.stop ≤ b.duration) :
    (removeSilence b regions).length =
      ((keepIntervals regions b.sampleRate b.length).map
        (fun k => (k.2 - k.1).toNat)).sum ∧
    (removeSilence b regions).numberOfChannels = b.numberOfChannels ∧
    (removeSilence b regions).sampleRate = b.sampleRate ∧
    ∀ c, c < b.numberOfChannels →
      (removeSilence b regions).getChannelData c =
        ((keepIntervals regions b.sampleRate b.length).map
          (fun k => ((b.getChannelData c).take k.2.toNat).drop k.1.toNat)).flatten := by
  have hreg' : ∀ r ∈ regions, 0 ≤ r.start ∧ r.start ≤ r.stop ∧
      r.stop ≤ (b.length : ℚ) / (b.sampleRate : ℚ) := hreg
  have hb := keepIntervals_bounds regions b.sampleRate b.length hsr hreg'
  have hspan : ∀ k ∈ keepIntervals regions b.sampleRate b.length, k.1 ≤ k.2 :=
    fun k hk => le_of_lt (hb k hk).2.1
  have hNL : ((keepIntervals regions b.sampleRate b.length).foldl
      (fun acc reg => acc + (reg.2 - reg.1)) (0 : ℤ)).toNat =
      ((keepIntervals regions b.sampleRate b.length).map
        (fun k => (k.2 - k.1).toNat)).sum := by
    rw [foldl_add_span, zero_add]
    exact sum_toNat_of_spans _ hspan
  refine ⟨?_, ?_, ?_, ?_⟩
  · show ((keepIntervals regions b.sampleRate b.length).foldl
      (fun acc reg => acc + (reg.2 - reg.1)) (0 : ℤ)).toNat = _
    exact hNL
  · show ((List.range b.numberOfChannels).map _).length = b.numberOfChannels
    simp
  · rfl
  · intro c hc
    have hch := getChannelData_length b hwf c hc
    have hget : (removeSilence b regions).getChannelData c =
        copyChannel (b.getChannelData c) (keepIntervals regions b.sampleRate b.length)
          ((keepIntervals regions b.sampleRate b.length).foldl
            (fun acc reg => acc + (reg.2 - reg.1)) (0 : ℤ)).toNat :=
      getChannelData_map_range _ _ _ _ c hc
    rw [hget]
    unfold copyChannel
    have hb' : ∀ k ∈ keepIntervals regions b.sampleRate b.length,
        0 ≤ k.1 ∧ k.1 < k.2 ∧ k.2 ≤ ((b.getChannelData c).length : ℤ) := by
      intro k hk
      rw [hch]
      exact hb k hk
    have hcf := copyFold_concat (b.getChannelData c)
      (keepIntervals regions b.sampleRate b.length)
      (List.replicate (((keepIntervals regions b.sampleRate b.length).foldl
        (fun acc reg => acc + (reg.2 - reg.1)) (0 : ℤ)).toNat) 0) 0 hb'
      (by rw [List.length_replicate, hNL, zero_add])
    rw [hcf, hNL]
    simp

unseal Rat.add Rat.mul Rat.inv Rat.sub Rat.ofScientific in
theorem claim1_witness :
    (BufferWF b1 ∧ 0 < b1.sampleRate ∧
      (∀ r ∈ regions1, 0 ≤ r.start ∧ r.start ≤ r.stop ∧ r.stop ≤ b1.duration)) ∧
    ((removeSilence b1 regions1).length =
      ((keepIntervals regions1 b1.sampleRate b1.length).map
        (fun k => (k.2 - k.1).toNat)).sum ∧
    (removeSilence b1 regions1).numberOfChannels = b1.numberOfChannels ∧
    (removeSilence b1 regions1).sampleRate = b1.sampleRate ∧
    ∀ c, c < b1.numberOfChannels →
      (removeSilence b1 regions1).getChannelData c =
        ((keepIntervals regions1 b1.sampleRate b1.length).map
          (fun k => ((b1.getChannelData c).take k.2.toNat).drop k.1.toNat)).flatten) :=
  ⟨⟨by unfold BufferWF; decide, by decide, by decide⟩,
   claim1_gap_remover b1 regions1 (by unfold BufferWF; decide) (by decide) (by decide)⟩

/-! ## Division-by-sample-rate helpers -/

theorem natDiv_nonneg (sampleRate a : ℕ) : (0 : ℚ) ≤ (a : ℚ) / (sampleRate : ℚ) :=
  div_nonneg (Nat.cast_nonneg a) (Nat.cast_nonneg sampleRate)

theorem natDiv_le_natDiv (sampleRate : ℕ) {a b : ℕ} (h : a ≤ b) :
    (a : ℚ) / (sampleRate : ℚ) ≤ (b : ℚ) / (sampleRate : ℚ) :=
  div_le_div_of_nonneg_right (by exact_mod_cast h) (Nat.cast_nonneg sampleRate)

theorem natDiv_lt_natDiv (sampleRate : ℕ) (hsr : 0 < sampleRate) {a b : ℕ} (h : a < b) :
    (a : ℚ) / (sampleRate : ℚ) < (b : ℚ) / (sampleRate : ℚ) :=
  div_lt_div_of_pos_right (by exact_mod_cast h) (by exact_mod_cast hsr)

/-! ## RegionChain lemmas -/

theorem regionChain_mono (minDuration : ℚ) : ∀ (rs : List Region) (lo lo2 hi hi2 : ℚ),
    RegionChain minDuration lo hi rs → lo2 ≤ lo → hi ≤ hi2 →
    RegionChain minDuration lo2 hi2 rs := by
  intro rs
  induction rs with
  | nil =>
    intro lo lo2 hi hi2 _ _ _
    trivial
  | cons r t ih =>
    intro lo lo2 hi hi2 h hlo hhi
    simp only [RegionChain] at h ⊢
    obtain ⟨h1, h2, h3, h4, h5⟩ := h
    exact ⟨le_trans hlo h1, h2, h3, le_trans h4 hhi, ih r.stop r.stop hi hi2 h5 le_rfl hhi⟩

theorem regionChain_concat (minDuration : ℚ) : ∀ (rs : List Region) (lo hi : ℚ) (r : Region),
    RegionChain minDuration lo hi rs → lo ≤ hi → hi ≤ r.start → r.start < r.stop →
    minDuration ≤ r.stop - r.start → RegionChain minDuration lo r.stop (rs ++ [r]) := by
  intro rs
  induction rs with
  | nil =>
    intro lo hi r _ hlh h1 h2 h3
    simp only [List.nil_append, RegionChain]
    exact ⟨le_trans hlh h1, h2, h3, le_rfl, trivial⟩
  | cons x t ih =>
    intro lo hi r h hlh h1 h2 h3
    simp only [List.cons_append, RegionChain] at h ⊢
    obtain ⟨ha, hb, hc, hd, he⟩ := h
    exact ⟨ha, hb, hc, le_trans hd (le_trans h1 (le_of_lt h2)),
      ih x.stop hi r he hd h1 h2 h3⟩

theorem regionChain_props (minDuration : ℚ) : ∀ (rs : List Region) (lo hi : ℚ),
    RegionChain minDuration lo hi rs →
    (∀ r ∈ rs, lo ≤ r.start ∧ r.start < r.stop ∧ minDuration ≤ r.stop - r.start ∧
      r.stop ≤ hi) ∧
    rs.Pairwise (fun a b => a.stop ≤ b.start) := by
  intro rs
  induction rs with
  | nil =>
    intro lo hi _
    exact ⟨by simp, List.Pairwise.nil⟩
  | cons x t ih =>
    intro lo hi h
    simp only [RegionChain] at h
    obtain ⟨h1, h2, h3, h4, h5⟩ := h
    obtain ⟨hall, hpw⟩ := ih x.stop hi h5
    refine ⟨?_, ?_⟩
    · intro r hr
      rcases List.mem_cons.mp hr with rfl | hr2
      · exact ⟨h1, h2, h3, h4⟩
      · obtain ⟨ga, gb, gc, gd⟩ := hall r hr2
        exact ⟨le_trans h1 (le_trans (le_of_lt h2) ga), gb, gc, gd⟩
    · exact List.Pairwise.cons (fun b hb => (hall b hb).1) hpw

/-! ## Properties of the visited index stream -/

theorem mem_range'_ge (st : ℕ) : ∀ (n s m : ℕ), m ∈ List.range' s n st → s ≤ m := by
  intro n
  induction n with
  | zero =>
    intro s m hm
    cases hm
  | succ n ih =>
    intro s m hm
    rw [List.range'_succ] at hm
    rcases List.mem_cons.mp hm with rfl | hm2
    · exact le_rfl
    · exact le_trans (Nat.le_add_right s st) (ih (s + st) m hm2)

theorem range'_pairwise_lt (st : ℕ) (hst : 0 < st) :
    ∀ (n s : ℕ), (List.range' s n st).Pairwise (· < ·) := by
  intro n
  induction n with
  | zero =>
    intro s
    exact List.Pairwise.nil
  | succ n ih =>
    intro s
    rw [List.range'_succ]
    refine List.Pairwise.cons ?_ (ih (s + st))
    intro m hm
    have := mem_range'_ge st n (s + st) m hm
    omega

theorem mem_visitedIndices (len i : ℕ) (h : i ∈ visitedIndices len) :
    i < len ∧ ∃ k, i = step * k := by
  unfold visitedIndices step at h
  rw [List.mem_range'] at h
  obtain ⟨j, hj, rfl⟩ := h
  have hj1 : j + 1 ≤ (len + 200 - 1) / 200 := hj
  have hmul := (Nat.le_div_iff_mul_le (by omega : 0 < 200)).mp hj1
  refine ⟨by omega, j, by unfold step; omega⟩

theorem visitedIndices_pairwise (len : ℕ) : (visitedIndices len).Pairwise (· < ·) :=
  range'_pairwise_lt step (by unfold step; omega) _ 0

/-! ## The scanning-loop invariant -/

theorem scanStep_inv (sampleRate : ℕ) (hsr : 0 < sampleRate) (minDuration : ℚ)
    (rawData : List ℚ) (s : ScanState) (p i : ℕ)
    (hpi : p ≤ i) (hil : i < rawData.length) (hal : ∃ k, i = step * k)
    (hinv : ScanInv sampleRate minDuration rawData.length s p) :
    ScanInv sampleRate minDuration rawData.length
      (scanStep sampleRate minDuration rawData s i) (i + 1) := by
  by_cases hamp : |rawData.getD i 0| < threshold
  · cases hsil : s.isSilent with
    | true =>
      have hstep : scanStep sampleRate minDuration rawData s i = s := by
        simp only [scanStep]
        rw [if_pos hamp, if_pos hsil]
      rw [hstep]
      simp only [ScanInv] at hinv ⊢
      obtain ⟨hreg, hsilInv, _⟩ := hinv
      obtain ⟨ha, hb, hc, hd⟩ := hsilInv hsil
      refine ⟨hreg, fun _ => ⟨by omega, hb, hc, hd⟩, fun hf => ?_⟩
      rw [hsil] at hf
      exact absurd hf (by decide)
    | false =>
      have hsil2 : ¬(s.isSilent = true) := by
        rw [hsil]
        decide
      have hstep : scanStep sampleRate minDuration rawData s i =
          { isSilent := true, silenceStart := i, regions := s.regions } := by
        simp only [scanStep]
        rw [if_pos hamp, if_neg hsil2]
      rw [hstep]
      simp only [ScanInv] at hinv ⊢
      obtain ⟨hreg, _, hsoundInv⟩ := hinv
      refine ⟨hreg, fun _ => ⟨by omega, hil, hal, ?_⟩, fun hf => absurd hf (by decide)⟩
      refine regionChain_mono minDuration s.regions 0 0 _ _ (hsoundInv hsil) le_rfl ?_
      exact natDiv_le_natDiv sampleRate (by omega : min p rawData.length ≤ i)
  · cases hsil : s.isSilent with
    | true =>
      simp only [ScanInv] at hinv
      obtain ⟨hreg, hsilInv, _⟩ := hinv
      obtain ⟨ha, hb, hc, hd⟩ := hsilInv hsil
      obtain ⟨k0, hk0⟩ := hc
      obtain ⟨m0, hm0⟩ := hal
      by_cases hdur : ((i : ℚ) - (s.silenceStart : ℚ)) / (sampleRate : ℚ) ≥ minDuration
      · have hstep : scanStep sampleRate minDuration rawData s i =
            { isSilent := false, silenceStart := s.silenceStart,
              regions := s.regions ++
                [{ start := (s.silenceStart : ℚ) / (sampleRate : ℚ),
                   stop := (i : ℚ) / (sampleRate : ℚ) }] } := by
          simp only [scanStep]
          rw [if_neg hamp, if_pos hsil, if_pos hdur]
        rw [hstep]
        simp only [ScanInv]
        have hnewchain : RegionChain minDuration 0 ((i : ℚ) / (sampleRate : ℚ))
            (s.regions ++
              [{ start := (s.silenceStart : ℚ) / (sampleRate : ℚ),
                 stop := (i : ℚ) / (sampleRate : ℚ) }]) := by
          refine regionChain_concat minDuration s.regions 0
            ((s.silenceStart : ℚ) / (sampleRate : ℚ))
            { start := (s.silenceStart : ℚ) / (sampleRate : ℚ),
              stop := (i : ℚ) / (sampleRate : ℚ) } hd
            (natDiv_nonneg sampleRate s.silenceStart) le_rfl ?_ ?_
          · exact natDiv_lt_natDiv sampleRate hsr (by omega)
          · show minDuration ≤ (i : ℚ) / (sampleRate : ℚ) -
              (s.silenceStart : ℚ) / (sampleRate : ℚ)
            rw [div_sub_div_same]
            exact hdur
        refine ⟨?_, fun hf => absurd hf (by decide), fun _ => ?_⟩
        · intro r hr
          rcases List.mem_append.mp hr with hr1 | hr2
          · exact hreg r hr1
          · rw [List.mem_singleton] at hr2
            subst hr2
            have hkm : k0 < m0 := by
              have hlt : step * k0 < step * m0 := by
                rw [← hk0, ← hm0]
                omega
              unfold step at hlt
              omega
            exact ⟨k0, m0, hkm, by rw [hk0], by rw [hm0]⟩
        · refine regionChain_mono minDuration _ 0 0 _ _ hnewchain le_rfl ?_
          exact natDiv_le_natDiv sampleRate
            (by omega : i ≤ min (i + 1) rawData.length)
      · have hstep : scanStep sampleRate minDuration rawData s i =
            { isSilent := false, silenceStart := s.silenceStart,
              regions := s.regions } := by
          simp only [scanStep]
          rw [if_neg hamp, if_pos hsil, if_neg hdur]
        rw [hstep]
        simp only [ScanInv]
        refine ⟨hreg, fun hf => absurd hf (by decide), fun _ => ?_⟩
        refine regionChain_mono minDuration s.regions 0 0 _ _ hd le_rfl ?_
        exact natDiv_le_natDiv sampleRate
          (by omega : s.silenceStart ≤ min (i + 1) rawData.length)
    | false =>
      have hsil2 : ¬(s.isSilent = true) := by
        rw [hsil]
        decide
      have hstep : scanStep sampleRate minDuration rawData s i = s := by
        simp only [scanStep]
        rw [if_neg hamp, if_neg hsil2]
      rw [hstep]
      simp only [ScanInv] at hinv ⊢
      obtain ⟨hreg, _, hsoundInv⟩ := hinv
      refine ⟨hreg, fun hf => ?_, fun _ => ?_⟩
      · rw [hsil] at hf
        exact absurd hf (by decide)
      · refine regionChain_mono minDuration s.regions 0 0 _ _ (hsoundInv hsil) le_rfl ?_
        exact natDiv_le_natDiv sampleRate
          (by omega : min p rawData.length ≤ min (i + 1) rawData.length)

theorem scanFold_inv (sampleRate : ℕ) (hsr : 0 < sampleRate) (minDuration : ℚ)
    (rawData : List ℚ) :
    ∀ (idxs : List ℕ) (s : ScanState) (p : ℕ),
    (∀ i ∈ idxs, p ≤ i ∧ i < rawData.length ∧ ∃ k, i = step * k) →
    idxs.Pairwise (· < ·) →
    ScanInv sampleRate minDuration rawData.length s p →
    ∃ q, ScanInv sampleRate minDuration rawData.length
      (idxs.foldl (scanStep sampleRate minDuration rawData) s) q := by
  intro idxs
  induction idxs with
  | nil =>
    intro s p _ _ hinv
    exact ⟨p, hinv⟩
  | cons i rest ih =>
    intro s p hmem hpw hinv
    rw [List.foldl_cons]
    have hi := hmem i (List.mem_cons_self i rest)
    have hstep := scanStep_inv sampleRate hsr minDuration rawData s p i
      hi.1 hi.2.1 hi.2.2 hinv
    obtain ⟨hlt, hpwrest⟩ := List.pairwise_cons.mp hpw
    refine ih _ (i + 1) ?_ hpwrest hstep
    intro j hj
    have h1 := hmem j (List.mem_cons_of_mem i hj)
    have h2 := hlt j hj
    exact ⟨by omega, h1.2.1, h1.2.2⟩

/-- The master invariant of `analyzeSilence`: the returned list forms a
non-overlapping chain within `[0, length/sampleRate]` whose durations pass
the `minDuration` test exactly, and every region is a pair of stride-aligned
visited indices except possibly the last one, which may come from the
end-of-stream flush and then ends exactly at `length/sampleRate`. -/
theorem analyzeSilence_inv (b : AudioBuffer) (minDuration : ℚ)
    (hsr : 0 < b.sampleRate) :
    RegionChain minDuration 0
      (((b.getChannelData 0).length : ℚ) / (b.sampleRate : ℚ))
      (analyzeSilence b minDuration) ∧
    ∀ r ∈ analyzeSilence b minDuration,
      AlignedPair b.sampleRate r ∨
      ((analyzeSilence b minDuration).getLast? = some r ∧
        (∃ k, r.start = ((step * k : ℕ) : ℚ) / (b.sampleRate : ℚ)) ∧
        r.stop = (((b.getChannelData 0).length : ℚ)) / (b.sampleRate : ℚ)) := by
  have hinit : ScanInv b.sampleRate minDuration (b.getChannelData 0).length
      { isSilent := false, silenceStart := 0, regions := [] } 0 := by
    simp only [ScanInv]
    refine ⟨?_, fun hf => absurd hf (by decide), fun _ => trivial⟩
    intro r hr
    cases hr
  obtain ⟨q, hq⟩ := scanFold_inv b.sampleRate hsr minDuration (b.getChannelData 0)
    (visitedIndices (b.getChannelData 0).length)
    { isSilent := false, silenceStart := 0, regions := [] } 0
    (fun i hi => ⟨Nat.zero_le i, (mem_visitedIndices _ i hi).1,
      (mem_visitedIndices _ i hi).2⟩)
    (visitedIndices_pairwise _) hinit
  set F := (visitedIndices (b.getChannelData 0).length).foldl
    (scanStep b.sampleRate minDuration (b.getChannelData 0))
    { isSilent := false, silenceStart := 0, regions := [] } with hFdef
  have hval : analyzeSilence b minDuration =
      (if F.isSilent then
        (if ((((b.getChannelData 0).length : ℚ)) - (F.silenceStart : ℚ)) /
            (b.sampleRate : ℚ) ≥ minDuration then
          F.regions ++
            [{ start := (F.silenceStart : ℚ) / (b.sampleRate : ℚ),
               stop := (((b.getChannelData 0).length : ℚ)) / (b.sampleRate : ℚ) }]
        else F.regions)
      else F.regions) := rfl
  simp only [ScanInv] at hq
  obtain ⟨hreg, hsilInv, hsoundInv⟩ := hq
  cases hFs : F.isSilent with
  | true =>
    obtain ⟨ha, hb, hc, hd⟩ := hsilInv hFs
    by_cases hdur : ((((b.getChannelData 0).length : ℚ)) - (F.silenceStart : ℚ)) /
        (b.sampleRate : ℚ) ≥ minDuration
    · have hval2 : analyzeSilence b minDuration = F.regions ++
          [{ start := (F.silenceStart : ℚ) / (b.sampleRate : ℚ),
             stop := (((b.getChannelData 0).length : ℚ)) / (b.sampleRate : ℚ) }] := by
        rw [hval, if_pos hFs, if_pos hdur]
      rw [hval2]
      constructor
      · have := regionChain_concat minDuration F.regions 0
          ((F.silenceStart : ℚ) / (b.sampleRate : ℚ))
          { start := (F.silenceStart : ℚ) / (b.sampleRate : ℚ),
            stop := (((b.getChannelData 0).length : ℚ)) / (b.sampleRate : ℚ) }
          hd (natDiv_nonneg _ _) le_rfl
          (natDiv_lt_natDiv b.sampleRate hsr hb)
          (by
            show minDuration ≤ (((b.getChannelData 0).length : ℚ)) / (b.sampleRate : ℚ) -
              (F.silenceStart : ℚ) / (b.sampleRate : ℚ)
            rw [div_sub_div_same]
            exact hdur)
        exact this
      · intro r hr
        rcases List.mem_append.mp hr with hr1 | hr2
        · exact Or.inl (hreg r hr1)
        · rw [List.mem_singleton] at hr2
          subst hr2
          right
          refine ⟨by simp, ?_, rfl⟩
          obtain ⟨k0, hk0⟩ := hc
          exact ⟨k0, by rw [hk0]⟩
    · have hval2 : analyzeSilence b minDuration = F.regions := by
        rw [hval, if_pos hFs, if_neg hdur]
      rw [hval2]
      refine ⟨?_, fun r hr => Or.inl (hreg r hr)⟩
      refine regionChain_mono minDuration F.regions 0 0 _ _ hd le_rfl ?_
      exact natDiv_le_natDiv b.sampleRate (le_of_lt hb)
  | false =>
    have hval2 : analyzeSilence b minDuration = F.regions := by
      have hFs2 : ¬(F.isSilent = true) := by
        rw [hFs]
        decide
      rw [hval, if_neg hFs2]
    rw [hval2]
    refine ⟨?_, fun r hr => Or.inl (hreg r hr)⟩
    refine regionChain_mono minDuration F.regions 0 0 _ _ (hsoundInv hFs) le_rfl ?_
    exact natDiv_le_natDiv b.sampleRate
      (by omega : min q (b.getChannelData 0).length ≤ (b.getChannelData 0).length)

/-! ## Claims C4 and C9: detector result invariants -/

/-- Claim C4: for every valid buffer with at least one channel and every
`minDuration ≥ 0`, the regions returned by the detector are sorted ascending
by `start`, pairwise non-overlapping, lie within `[0, buffer.duration]`,
have `start < end`, and have duration at least `minDuration` (the duration
test is in fact exact, so the stride tolerance is not even needed). -/
theorem claim4_region_invariants (b : AudioBuffer) (minDuration : ℚ)
    (hch : 1 ≤ b.numberOfChannels) (hwf : BufferWF b) (hsr : 0 < b.sampleRate)
    (hmd : 0 ≤ minDuration) :
    (analyzeSilence b minDuration).Pairwise (fun r1 r2 => r1.start ≤ r2.start) ∧
    (analyzeSilence b minDuration).Pairwise (fun r1 r2 => r1.stop ≤ r2.start) ∧
    ∀ r ∈ analyzeSilence b minDuration,
      0 ≤ r.start ∧ r.stop ≤ b.duration ∧ r.start < r.stop ∧
      minDuration ≤ r.stop - r.start := by
  have hlen0 : (b.getChannelData 0).length = b.length :=
    getChannelData_length b hwf 0 hch
  obtain ⟨hchain, _⟩ := analyzeSilence_inv b minDuration hsr
  rw [hlen0] at hchain
  obtain ⟨hall, hpw⟩ := regionChain_props minDuration (analyzeSilence b minDuration)
    0 ((b.length : ℚ) / (b.sampleRate : ℚ)) hchain
  refine ⟨?_, hpw, ?_⟩
  · refine hpw.imp_of_mem ?_
    intro r1 r2 h1 _ h12
    exact le_trans (le_of_lt (hall r1 h1).2.1) h12
  · intro r hr
    obtain ⟨g1, g2, g3, g4⟩ := hall r hr
    exact ⟨g1, g4, g2, g3⟩

/-- Witness for C4 at the one-sample silent mono buffer `bMono`. -/
theorem claim4_witness :
    (1 ≤ bMono.numberOfChannels ∧ BufferWF bMono ∧ 0 < bMono.sampleRate ∧
      (0 : ℚ) ≤ 0) ∧
    ((analyzeSilence bMono 0).Pairwise (fun r1 r2 => r1.start ≤ r2.start) ∧
     (analyzeSilence bMono 0).Pairwise (fun r1 r2 => r1.stop ≤ r2.start) ∧
     ∀ r ∈ analyzeSilence bMono 0,
       0 ≤ r.start ∧ r.stop ≤ bMono.duration ∧ r.start < r.stop ∧
       (0 : ℚ) ≤ r.stop - r.start) :=
  ⟨⟨by decide, by unfold BufferWF; decide, by decide, le_rfl⟩,
   claim4_region_invariants bMono 0 (by decide) (by unfold BufferWF; decide)
     (by decide) le_rfl⟩

/-- Claim C9: every region boundary produced by the detector is a
stride-aligned visited index divided by the sample rate — the start is
`(k * 200) / sampleRate`, the end is `(m * 200) / sampleRate` with `m > k` —
except that the final region, when produced by the end-of-stream flush, ends
exactly at `buffer.length / sampleRate`; no other boundary values occur. -/
theorem claim9_stride_alignment (b : AudioBuffer) (minDuration : ℚ)
    (hch : 1 ≤ b.numberOfChannels) (hwf : BufferWF b) (hsr : 0 < b.sampleRate) :
    ∀ r ∈ analyzeSilence b minDuration,
      (∃ k m : ℕ, k < m ∧ r.start = ((k * 200 : ℕ) : ℚ) / (b.sampleRate : ℚ) ∧
        r.stop = ((m * 200 : ℕ) : ℚ) / (b.sampleRate : ℚ)) ∨
      ((analyzeSilence b minDuration).getLast? = some r ∧
        (∃ k : ℕ, r.start = ((k * 200 : ℕ) : ℚ) / (b.sampleRate : ℚ)) ∧
        r.stop = (b.length : ℚ) / (b.sampleRate : ℚ)) := by
  have hlen0 : (b.getChannelData 0).length = b.length :=
    getChannelData_length b hwf 0 hch
  obtain ⟨_, halign⟩ := analyzeSilence_inv b minDuration hsr
  intro r hr
  have hcomm : ∀ k : ℕ, step * k = k * 200 := by
    intro k
    unfold step
    ring
  rcases halign r hr with ⟨k, m, hkm, h1, h2⟩ | ⟨hlast, ⟨k, hk⟩, hstop⟩
  · left
    refine ⟨k, m, hkm, ?_, ?_⟩
    · rw [h1, hcomm k]
    · rw [h2, hcomm m]
  · right
    rw [hlen0] at hstop
    exact ⟨hlast, ⟨k, by rw [hk, hcomm k]⟩, hstop⟩

/-- Witness for C9 at the one-sample silent mono buffer `bMono`. -/
theorem claim9_witness :
    (1 ≤ bMono.numberOfChannels ∧ BufferWF bMono ∧ 0 < bMono.sampleRate) ∧
    (∀ r ∈ analyzeSilence bMono 0,
      (∃ k m : ℕ, k < m ∧ r.start = ((k * 200 : ℕ) : ℚ) / (bMono.sampleRate : ℚ) ∧
        r.stop = ((m * 200 : ℕ) : ℚ) / (bMono.sampleRate : ℚ)) ∨
      ((analyzeSilence bMono 0).getLast? = some r ∧
        (∃ k : ℕ, r.start = ((k * 200 : ℕ) : ℚ) / (bMono.sampleRate : ℚ)) ∧
        r.stop = (bMono.length : ℚ) / (bMono.sampleRate : ℚ))) :=
  ⟨⟨by decide, by unfold BufferWF; decide, by decide⟩,
   claim9_stride_alignment bMono 0 (by decide) (by unfold BufferWF; decide)
     (by decide)⟩

/-! ## Claim C10: non-positive minimum durations all behave like zero -/

theorem scanStep_nonpos (sampleRate : ℕ) (minDuration : ℚ) (hmd : minDuration ≤ 0)
    (rawData : List ℚ) (s : ScanState) (p i : ℕ) (hpi : p ≤ i)
    (hil : i < rawData.length)
    (hinv : s.isSilent = true → s.silenceStart < p ∧ s.silenceStart < rawData.length) :
    scanStep sampleRate minDuration rawData s i = scanStep sampleRate 0 rawData s i ∧
    ((scanStep sampleRate minDuration rawData s i).isSilent = true →
      (scanStep sampleRate minDuration rawData s i).silenceStart < i + 1 ∧
      (scanStep sampleRate minDuration rawData s i).silenceStart < rawData.length) := by
  by_cases hamp : |rawData.getD i 0| < threshold
  · cases hsil : s.isSilent with
    | true =>
      have h1 : scanStep sampleRate minDuration rawData s i = s := by
        simp only [scanStep]
        rw [if_pos hamp, if_pos hsil]
      have h2 : scanStep sampleRate 0 rawData s i = s := by
        simp only [scanStep]
        rw [if_pos hamp, if_pos hsil]
      rw [h1, h2]
      refine ⟨rfl, fun _ => ?_⟩
      obtain ⟨ha, hb⟩ := hinv hsil
      exact ⟨by omega, hb⟩
    | false =>
      have hsil2 : ¬(s.isSilent = true) := by
        rw [hsil]
        decide
      have h1 : scanStep sampleRate minDuration rawData s i =
          { isSilent := true, silenceStart := i, regions := s.regions } := by
        simp only [scanStep]
        rw [if_pos hamp, if_neg hsil2]
      have h2 : scanStep sampleRate 0 rawData s i =
          { isSilent := true, silenceStart := i, regions := s.regions } := by
        simp only [scanStep]
        rw [if_pos hamp, if_neg hsil2]
      rw [h1, h2]
      exact ⟨rfl, fun _ => ⟨Nat.lt_succ_self i, hil⟩⟩
  · cases hsil : s.isSilent with
    | true =>
      obtain ⟨ha, hb⟩ := hinv hsil
      have hd0 : ((i : ℚ) - (s.silenceStart : ℚ)) / (sampleRate : ℚ) ≥ 0 := by
        apply div_nonneg _ (Nat.cast_nonneg sampleRate)
        have hcast : (s.silenceStart : ℚ) ≤ (i : ℚ) := by
          exact_mod_cast (by omega : s.silenceStart ≤ i)
        linarith
      have hdm : ((i : ℚ) - (s.silenceStart : ℚ)) / (sampleRate : ℚ) ≥ minDuration :=
        le_trans hmd hd0
      have h1 : scanStep sampleRate minDuration rawData s i =
          { isSilent := false, silenceStart := s.silenceStart,
            regions := s.regions ++
              [{ start := (s.silenceStart : ℚ) / (sampleRate : ℚ),
                 stop := (i : ℚ) / (sampleRate : ℚ) }] } := by
        simp only [scanStep]
        rw [if_neg hamp, if_pos hsil, if_pos hdm]
      have h2 : scanStep sampleRate 0 rawData s i =
          { isSilent := false, silenceStart := s.silenceStart,
            regions := s.regions ++
              [{ start := (s.silenceStart : ℚ) / (sampleRate : ℚ),
                 stop := (i : ℚ) / (sampleRate : ℚ) }] } := by
        simp only [scanStep]
        rw [if_neg hamp, if_pos hsil, if_pos hd0]
      rw [h1, h2]
      exact ⟨rfl, fun hf => by simp at hf⟩
    | false =>
      have hsil2 : ¬(s.isSilent = true) := by
        rw [hsil]
        decide
      have h1 : scanStep sampleRate minDuration rawData s i = s := by
        simp only [scanStep]
        rw [if_neg hamp, if_neg hsil2]
      have h2 : scanStep sampleRate 0 rawData s i = s := by
        simp only [scanStep]
        rw [if_neg hamp, if_neg hsil2]
      rw [h1, h2]
      refine ⟨rfl, fun hf => absurd hf hsil2⟩

theorem scanFold_nonpos (sampleRate : ℕ) (minDuration : ℚ) (hmd : minDuration ≤ 0)
    (rawData : List ℚ) :
    ∀ (idxs : List ℕ) (s : ScanState) (p : ℕ),
    (∀ i ∈ idxs, p ≤ i ∧ i < rawData.length) →
    idxs.Pairwise (· < ·) →
    (s.isSilent = true → s.silenceStart < p ∧ s.silenceStart < rawData.length) →
    idxs.foldl (scanStep sampleRate minDuration rawData) s =
      idxs.foldl (scanStep sampleRate 0 rawData) s ∧
    ((idxs.foldl (scanStep sampleRate minDuration rawData) s).isSilent = true →
      (idxs.foldl (scanStep sampleRate minDuration rawData) s).silenceStart <
        rawData.length) := by
  intro idxs
  induction idxs with
  | nil =>
    intro s p _ _ hinv
    exact ⟨rfl, fun hf => (hinv hf).2⟩
  | cons i rest ih =>
    intro s p hmem hpw hinv
    rw [List.foldl_cons, List.foldl_cons]
    have hi := hmem i (List.mem_cons_self i rest)
    obtain ⟨heq, hinv2⟩ := scanStep_nonpos sampleRate minDuration hmd rawData s p i
      hi.1 hi.2 hinv
    obtain ⟨hlt, hpwrest⟩ := List.pairwise_cons.mp hpw
    rw [heq]
    exact ih (scanStep sampleRate 0 rawData s i) (i + 1)
      (fun j hj => ⟨by have := hlt j hj; omega, (hmem j (List.mem_cons_of_mem i hj)).2⟩)
      hpwrest (heq ▸ hinv2)

/-- Claim C10: for every non-positive `minDuration`, `analyzeSilence` returns
exactly the regions of `analyzeSilence` at 0 — every candidate span has
non-negative duration, so the `duration ≥ minDuration` test accepts the same
spans for all non-positive thresholds. -/
theorem claim10_nonpos_min_duration (b : AudioBuffer) (minDuration : ℚ)
    (hmd : minDuration ≤ 0) :
    analyzeSilence b minDuration = analyzeSilence b 0 := by
  obtain ⟨heq, hflush⟩ := scanFold_nonpos b.sampleRate minDuration hmd
    (b.getChannelData 0) (visitedIndices (b.getChannelData 0).length)
    { isSilent := false, silenceStart := 0, regions := [] } 0
    (fun i hi => ⟨Nat.zero_le i, (mem_visitedIndices _ i hi).1⟩)
    (visitedIndices_pairwise _)
    (fun hf => absurd hf (by decide))
  set F := (visitedIndices (b.getChannelData 0).length).foldl
    (scanStep b.sampleRate minDuration (b.getChannelData 0))
    { isSilent := false, silenceStart := 0, regions := [] } with hFdef
  set G := (visitedIndices (b.getChannelData 0).length).foldl
    (scanStep b.sampleRate 0 (b.getChannelData 0))
    { isSilent := false, silenceStart := 0, regions := [] } with hGdef
  have hval1 : analyzeSilence b minDuration =
      (if F.isSilent then
        (if ((((b.getChannelData 0).length : ℚ)) - (F.silenceStart : ℚ)) /
            (b.sampleRate : ℚ) ≥ minDuration then
          F.regions ++
            [{ start := (F.silenceStart : ℚ) / (b.sampleRate : ℚ),
               stop := (((b.getChannelData 0).length : ℚ)) / (b.sampleRate : ℚ) }]
        else F.regions)
      else F.regions) := rfl
  have hval2 : analyzeSilence b 0 =
      (if G.isSilent then
        (if ((((b.getChannelData 0).length : ℚ)) - (G.silenceStart : ℚ)) /
            (b.sampleRate : ℚ) ≥ 0 then
          G.regions ++
            [{ start := (G.silenceStart : ℚ) / (b.sampleRate : ℚ),
               stop := (((b.getChannelData 0).length : ℚ)) / (b.sampleRate : ℚ) }]
        else G.regions)
      else G.regions) := rfl
  rw [hval1, hval2, ← heq]
  cases hFs : F.isSilent with
  | true =>
    have hb := hflush hFs
    have hd0 : ((((b.getChannelData 0).length : ℚ)) - (F.silenceStart : ℚ)) /
        (b.sampleRate : ℚ) ≥ 0 := by
      apply div_nonneg _ (Nat.cast_nonneg b.sampleRate)
      have hcast : (F.silenceStart : ℚ) ≤ (((b.getChannelData 0).length : ℚ)) := by
        exact_mod_cast le_of_lt hb
      linarith
    have hdm : ((((b.getChannelData 0).length : ℚ)) - (F.silenceStart : ℚ)) /
        (b.sampleRate : ℚ) ≥ minDuration := le_trans hmd hd0
    simp only [eq_self_iff_true, if_true]
    rw [if_pos hdm, if_pos hd0]
  | false =>
    simp

unseal Rat.add Rat.mul Rat.inv Rat.sub Rat.ofScientific in
theorem claim10_witness :
    ((-1 : ℚ) ≤ 0) ∧ analyzeSilence bMono (-1) = analyzeSilence bMono 0 :=
  ⟨by decide, claim10_nonpos_min_duration bMono (-1) (by decide)⟩

/-! ## Claim C3: the loop implements the specification's state machine -/

theorem detectStep_agrees (sampleRate : ℕ) (minDuration : ℚ) (rawData : List ℚ)
    (s : ScanState) (t : ScanMode × List Region) (i : ℕ)
    (h : modeAgrees s t) :
    modeAgrees (scanStep sampleRate minDuration rawData s i)
      (detectStep sampleRate minDuration rawData t i) := by
  obtain ⟨m, rs⟩ := t
  obtain ⟨hreg, hcase⟩ := h
  simp only at hreg
  by_cases hamp : |rawData.getD i 0| < threshold
  · rcases hcase with ⟨hsil, hmode⟩ | ⟨hsil, hmode⟩
    · simp only at hmode
      subst hmode
      have hstep : scanStep sampleRate minDuration rawData s i = s := by
        simp only [scanStep]
        rw [if_pos hamp, if_pos hsil]
      have hdet : detectStep sampleRate minDuration rawData
          (ScanMode.Silent s.silenceStart, rs) i =
          (ScanMode.Silent s.silenceStart, rs) := by
        simp only [detectStep]
        rw [if_pos hamp]
      rw [hstep, hdet]
      exact ⟨hreg, Or.inl ⟨hsil, rfl⟩⟩
    · simp only at hmode
      subst hmode
      have hsil2 : ¬(s.isSilent = true) := by
        rw [hsil]
        decide
      have hstep : scanStep sampleRate minDuration rawData s i =
          { isSilent := true, silenceStart := i, regions := s.regions } := by
        simp only [scanStep]
        rw [if_pos hamp, if_neg hsil2]
      have hdet : detectStep sampleRate minDuration rawData (ScanMode.Sounding, rs) i =
          (ScanMode.Silent i, rs) := by
        simp only [detectStep]
        rw [if_pos hamp]
      rw [hstep, hdet]
      exact ⟨hreg, Or.inl ⟨rfl, rfl⟩⟩
  · rcases hcase with ⟨hsil, hmode⟩ | ⟨hsil, hmode⟩
    · simp only at hmode
      subst hmode
      by_cases hdur : ((i : ℚ) - (s.silenceStart : ℚ)) / (sampleRate : ℚ) ≥ minDuration
      · have hstep : scanStep sampleRate minDuration rawData s i =
            { isSilent := false, silenceStart := s.silenceStart,
              regions := s.regions ++
                [{ start := (s.silenceStart : ℚ) / (sampleRate : ℚ),
                   stop := (i : ℚ) / (sampleRate : ℚ) }] } := by
          simp only [scanStep]
          rw [if_neg hamp, if_pos hsil, if_pos hdur]
        have hdet : detectStep sampleRate minDuration rawData
            (ScanMode.Silent s.silenceStart, rs) i =
            (ScanMode.Sounding, rs ++
              [{ start := (s.silenceStart : ℚ) / (sampleRate : ℚ),
                 stop := (i : ℚ) / (sampleRate : ℚ) }]) := by
          simp only [detectStep]
          rw [if_neg hamp, if_pos hdur]
        rw [hstep, hdet]
        exact ⟨by rw [hreg], Or.inr ⟨rfl, rfl⟩⟩
      · have hstep : scanStep sampleRate minDuration rawData s i =
            { isSilent := false, silenceStart := s.silenceStart,
              regions := s.regions } := by
          simp only [scanStep]
          rw [if_neg hamp, if_pos hsil, if_neg hdur]
        have hdet : detectStep sampleRate minDuration rawData
            (ScanMode.Silent s.silenceStart, rs) i = (ScanMode.Sounding, rs) := by
          simp only [detectStep]
          rw [if_neg hamp, if_neg hdur]
        rw [hstep, hdet]
        exact ⟨hreg, Or.inr ⟨rfl, rfl⟩⟩
    · simp only at hmode
      subst hmode
      have hsil2 : ¬(s.isSilent = true) := by
        rw [hsil]
        decide
      have hstep : scanStep sampleRate minDuration rawData s i = s := by
        simp only [scanStep]
        rw [if_neg hamp, if_neg hsil2]
      have hdet : detectStep sampleRate minDuration rawData (ScanMode.Sounding, rs) i =
          (ScanMode.Sounding, rs) := by
        simp only [detectStep]
        rw [if_neg hamp]
      rw [hstep, hdet]
      exact ⟨hreg, Or.inr ⟨hsil, rfl⟩⟩

theorem detectFold_agrees (sampleRate : ℕ) (minDuration : ℚ) (rawData : List ℚ) :
    ∀ (idxs : List ℕ) (s : ScanState) (t : ScanMode × List Region),
    modeAgrees s t →
    modeAgrees (idxs.foldl (scanStep sampleRate minDuration rawData) s)
      (idxs.foldl (detectStep sampleRate minDuration rawData) t) := by
  intro idxs
  induction idxs with
  | nil =>
    intro s t h
    exact h
  | cons i rest ih =>
    intro s t h
    rw [List.foldl_cons, List.foldl_cons]
    exact ih _ _ (detectStep_agrees sampleRate minDuration rawData s t i h)

theorem detectSilence_fold_sounding (b : AudioBuffer) (minDuration : ℚ)
    (rs : List Region)
    (hfold : (visitedIndices (b.getChannelData 0).length).foldl
      (detectStep b.sampleRate minDuration (b.getChannelData 0))
      (ScanMode.Sounding, []) = (ScanMode.Sounding, rs)) :
    detectSilence b minDuration = rs := by
  simp only [detectSilence]
  rw [hfold]

theorem detectSilence_fold_silent (b : AudioBuffer) (minDuration : ℚ)
    (silenceStart : ℕ) (rs : List Region)
    (hfold : (visitedIndices (b.getChannelData 0).length).foldl
      (detectStep b.sampleRate minDuration (b.getChannelData 0))
      (ScanMode.Sounding, []) = (ScanMode.Silent silenceStart, rs)) :
    detectSilence b minDuration =
      (if ((((b.getChannelData 0).length : ℚ)) - (silenceStart : ℚ)) /
          (b.sampleRate : ℚ) ≥ minDuration then
        rs ++ [{ start := (silenceStart : ℚ) / (b.sampleRate : ℚ),
                 stop := (((b.getChannelData 0).length : ℚ)) / (b.sampleRate : ℚ) }]
      else rs) := by
  simp only [detectSilence]
  rw [hfold]

/-- Claim C3: on every buffer with at least one channel, `analyzeSilence`
computes exactly the specification's two-state machine `detectSilence`:
initial state Sounding, `Sounding -> Silent` records the current index,
`Silent -> Sounding` emits exactly when `duration ≥ minDuration`, and the
end-of-stream flush applies the same test against the full sample count. -/
theorem claim3_detector_state_machine (b : AudioBuffer) (minDuration : ℚ)
    (hch : 1 ≤ b.numberOfChannels) :
    analyzeSilence b minDuration = detectSilence b minDuration := by
  have hagree := detectFold_agrees b.sampleRate minDuration (b.getChannelData 0)
    (visitedIndices (b.getChannelData 0).length)
    { isSilent := false, silenceStart := 0, regions := [] }
    (ScanMode.Sounding, []) ⟨rfl, Or.inr ⟨rfl, rfl⟩⟩
  set F := (visitedIndices (b.getChannelData 0).length).foldl
    (scanStep b.sampleRate minDuration (b.getChannelData 0))
    { isSilent := false, silenceStart := 0, regions := [] } with hFdef
  obtain ⟨hreg, hcase⟩ := hagree
  have hval1 : analyzeSilence b minDuration =
      (if F.isSilent then
        (if ((((b.getChannelData 0).length : ℚ)) - (F.silenceStart : ℚ)) /
            (b.sampleRate : ℚ) ≥ minDuration then
          F.regions ++
            [{ start := (F.silenceStart : ℚ) / (b.sampleRate : ℚ),
               stop := (((b.getChannelData 0).length : ℚ)) / (b.sampleRate : ℚ) }]
        else F.regions)
      else F.regions) := rfl
  rcases hcase with ⟨hsil, hmode⟩ | ⟨hsil, hmode⟩
  · have hfold : (visitedIndices (b.getChannelData 0).length).foldl
        (detectStep b.sampleRate minDuration (b.getChannelData 0))
        (ScanMode.Sounding, []) = (ScanMode.Silent F.silenceStart, F.regions) :=
      Prod.ext_iff.mpr ⟨hmode, hreg.symm⟩
    rw [hval1, detectSilence_fold_silent b minDuration F.silenceStart F.regions hfold,
      if_pos hsil]
  · have hfold : (visitedIndices (b.getChannelData 0).length).foldl
        (detectStep b.sampleRate minDuration (b.getChannelData 0))
        (ScanMode.Sounding, []) = (ScanMode.Sounding, F.regions) :=
      Prod.ext_iff.mpr ⟨hmode, hreg.symm⟩
    have hsil2 : ¬(F.isSilent = true) := by
      rw [hsil]
      decide
    rw [hval1, detectSilence_fold_sounding b minDuration F.regions hfold, if_neg hsil2]

/-- Witness for C3 at the one-sample silent mono buffer `bMono`. -/
theorem claim3_witness :
    (1 ≤ bMono.numberOfChannels) ∧
    analyzeSilence bMono 0 = detectSilence bMono 0 :=
  ⟨by decide, claim3_detector_state_machine bMono 0 (by decide)⟩

/-! ## Claim C2: the PCM encoder does not produce the claimed payload

After the thirteen header writes the source's byte counter `pos` holds 44,
and the sample loop is `while (pos < len)` reusing that same counter as the
frame index.  The encoder therefore encodes samples `44 … len-1` only,
leaving the final `44` frames of the data chunk zero and never encoding the
first 44 samples — while the header's own data-chunk size field still
announces `len` frames.  The claim that the payload holds the `len` frames
starting at sample 0 is refuted at `buffer45` below: sample 0 is full-scale
`1`, which the claimed layout would encode as bytes `[255, 127]` at offsets
44-45, but the produced blob has `0` there (it encodes sample 44, which is
silent). -/
set_option maxRecDepth 4000 in
unseal Rat.add Rat.mul Rat.inv Rat.sub Rat.ofScientific in
/-- Claim C2 (code bug): the blob has the claimed size `44 + len*numChan*2`,
but the payload is not the interleaved encoding of the first `len` frames —
at `buffer45` (mono, 45 frames, sample 0 full-scale) the claimed layout
would place `int16LEBytes (toInt16 sample0) = [255, 127]` at offsets 44-45,
while the produced blob holds `[0, 0]` there because the frame loop reuses
the header byte counter `pos = 44` as its frame index. -/
theorem claim2_encoder_skips_frames :
    (bufferToWav buffer45 45).length = 44 + 45 * 1 * 2 ∧
    (bufferToWav buffer45 45).getD 44 0 = 0 ∧
    (bufferToWav buffer45 45).getD 45 0 = 0 ∧
    int16LEBytes (toInt16 ((buffer45.getChannelData 0).getD 0 0)) = [255, 127] := by
  decide

/-- Witness for C7 at the concrete stereo buffer `b7`. -/
theorem claim7_witness : BufferWF b7 ∧ removeSilence b7 [] = b7 :=
  ⟨by unfold BufferWF; decide,
   claim7_empty_regions_identity b7 (by unfold BufferWF; decide)⟩

end SilenceRemover
